import Mathlib

/-!
Verification of the mcp-hq analysis-and-synthesis pipeline
(`src/nu/analyze_mcp_repository.py` and `src/scripts/analyze_mcp_server_repo.py`).

JSON documents are modelled by the inductive `JsonVal`; Python dicts are
association lists with first-key lookup and in-place update (`getKey` /
`setKey`), matching CPython's insertion-ordered dict semantics.  Numbers are
modelled as integers: the pipeline's own JSON payloads only use integral
numbers and floating point is outside the scope of this embedding, so inputs
with fractional or exponent parts are treated as unparsable here.
-/

namespace MCPHQ

inductive JsonVal : Type where
  | null : JsonVal
  | bool : Bool → JsonVal
  | num : Int → JsonVal
  | str : String → JsonVal
  | arr : List JsonVal → JsonVal
  | obj : List (String × JsonVal) → JsonVal

/-- Python dict lookup `d.get(k)` / `d[k]` on an insertion-ordered dict,
modelled as first-occurrence lookup in an association list. -/
def getKey : List (String × JsonVal) → String → Option JsonVal
  | [], _ => none
  | (k', v') :: rest, k => if k' = k then some v' else getKey rest k

/-- Python dict assignment `d[k] = v`: replaces the value in place when the
key exists (keeping its position) and appends the binding otherwise. -/
def setKey : List (String × JsonVal) → String → JsonVal → List (String × JsonVal)
  | [], k, v => [(k, v)]
  | (k', v') :: rest, k, v =>
    if k' = k then (k, v) :: rest else (k', v') :: setKey rest k v

/-- Python `k in d`. -/
def hasKey (m : List (String × JsonVal)) (k : String) : Bool :=
  (getKey m k).isSome

/-- Lookup on a JSON value that is expected to be an object. -/
def jGet : JsonVal → String → Option JsonVal
  | .obj fields, k => getKey fields k
  | _, _ => none

/-- JSON whitespace (as accepted between tokens by `json.loads`). -/
def jsonWs (c : Char) : Bool :=
  c == ' ' || c == '\t' || c == '\n' || c == '\r'

def skipWs (l : List Char) : List Char :=
  l.dropWhile jsonWs

def hexDigitVal (c : Char) : Option Nat :=
  if '0' ≤ c ∧ c ≤ '9' then some (c.toNat - '0'.toNat)
  else if 'a' ≤ c ∧ c ≤ 'f' then some (c.toNat - 'a'.toNat + 10)
  else if 'A' ≤ c ∧ c ≤ 'F' then some (c.toNat - 'A'.toNat + 10)
  else none

/-- Body of a JSON string literal, read after the opening quote; returns the
decoded characters together with the input remaining after the closing
quote.  Escapes follow RFC 8259 as implemented by `json.loads`; unescaped
control characters are rejected. -/
def parseStringBody : Nat → List Char → Option (List Char × List Char)
  | 0, _ => none
  | _ + 1, [] => none
  | fuel + 1, c :: rest =>
    if c == '"' then some ([], rest)
    else if c == '\\' then
      match rest with
      | [] => none
      | e :: rest2 =>
        if e == '"' then
          (parseStringBody fuel rest2).map (fun p => ('"' :: p.1, p.2))
        else if e == '\\' then
          (parseStringBody fuel rest2).map (fun p => ('\\' :: p.1, p.2))
        else if e == '/' then
          (parseStringBody fuel rest2).map (fun p => ('/' :: p.1, p.2))
        else if e == 'n' then
          (parseStringBody fuel rest2).map (fun p => ('\n' :: p.1, p.2))
        else if e == 't' then
          (parseStringBody fuel rest2).map (fun p => ('\t' :: p.1, p.2))
        else if e == 'r' then
          (parseStringBody fuel rest2).map (fun p => ('\r' :: p.1, p.2))
        else if e == 'b' then
          (parseStringBody fuel rest2).map (fun p => (Char.ofNat 8 :: p.1, p.2))
        else if e == 'f' then
          (parseStringBody fuel rest2).map (fun p => (Char.ofNat 12 :: p.1, p.2))
        else if e == 'u' then
          match rest2 with
          | h1 :: h2 :: h3 :: h4 :: rest3 =>
            match hexDigitVal h1, hexDigitVal h2, hexDigitVal h3, hexDigitVal h4 with
            | some a, some b, some c', some d =>
              (parseStringBody fuel rest3).map
                (fun p => (Char.ofNat (((a * 16 + b) * 16 + c') * 16 + d) :: p.1, p.2))
            | _, _, _, _ => none
          | _ => none
        else none
    else if c.toNat < 32 then none
    else (parseStringBody fuel rest).map (fun p => (c :: p.1, p.2))

def digitsToNat (l : List Char) : Nat :=
  l.foldl (fun acc c => acc * 10 + (c.toNat - '0'.toNat)) 0

/-- JSON number parsing restricted to integers: an optional minus sign and a
digit run without a superfluous leading zero.  A following `.`, `e` or `E`
(a float) is treated as unparsable in this model. -/
def parseNumber (l : List Char) : Option (Int × List Char) :=
  let neg := l.head? == some '-'
  let l1 := if neg then l.drop 1 else l
  let digits := l1.takeWhile Char.isDigit
  let rest := l1.drop digits.length
  if digits.isEmpty then none
  else if 1 < digits.length ∧ digits.head? = some '0' then none
  else if rest.head? == some '.' || rest.head? == some 'e' || rest.head? == some 'E' then none
  else some (if neg then -(digitsToNat digits : Int) else (digitsToNat digits : Int), rest)

mutual

/-- One JSON value, by recursive descent with explicit fuel; returns the
value and the unconsumed input. -/
def parseVal : Nat → List Char → Option (JsonVal × List Char)
  | 0, _ => none
  | fuel + 1, l =>
    match skipWs l with
    | [] => none
    | c :: rest =>
      if c == '\x7b' then
        (parseObjBody fuel rest).map (fun p => (JsonVal.obj p.1, p.2))
      else if c == '[' then
        (parseArrBody fuel rest).map (fun p => (JsonVal.arr p.1, p.2))
      else if c == '"' then
        (parseStringBody (fuel + 1) rest).map (fun p => (JsonVal.str p.1.asString, p.2))
      else if c == 't' then
        if ['r', 'u', 'e'].isPrefixOf rest then some (JsonVal.bool true, rest.drop 3) else none
      else if c == 'f' then
        if ['a', 'l', 's', 'e'].isPrefixOf rest then some (JsonVal.bool false, rest.drop 4) else none
      else if c == 'n' then
        if ['u', 'l', 'l'].isPrefixOf rest then some (JsonVal.null, rest.drop 3) else none
      else if c == '-' || c.isDigit then
        (parseNumber (c :: rest)).map (fun p => (JsonVal.num p.1, p.2))
      else none

/-- Array contents after the opening bracket. -/
def parseArrBody : Nat → List Char → Option (List JsonVal × List Char)
  | 0, _ => none
  | fuel + 1, l =>
    match skipWs l with
    | ']' :: rest => some ([], rest)
    | l' => do
      let (v, r) ← parseVal fuel l'
      let (vs, r2) ← parseArrRest fuel r
      some (v :: vs, r2)

/-- Array continuation: a comma-separated tail or the closing bracket. -/
def parseArrRest : Nat → List Char → Option (List JsonVal × List Char)
  | 0, _ => none
  | fuel + 1, l =>
    match skipWs l with
    | ']' :: rest => some ([], rest)
    | ',' :: rest => do
      let (v, r) ← parseVal fuel rest
      let (vs, r2) ← parseArrRest fuel r
      some (v :: vs, r2)
    | _ => none

/-- One `"key": value` object member. -/
def parseMember : Nat → List Char → Option ((String × JsonVal) × List Char)
  | 0, _ => none
  | fuel + 1, l =>
    match skipWs l with
    | '"' :: rest => do
      let (ks, r) ← parseStringBody (fuel + 1) rest
      match skipWs r with
      | ':' :: r2 => do
        let (v, r3) ← parseVal fuel r2
        some ((ks.asString, v), r3)
      | _ => none
    | _ => none

/-- Object contents after the opening brace; members are accumulated with
`setKey`, so a duplicated key keeps its first position but the last value,
exactly as when `json.loads` builds a Python dict. -/
def parseObjBody : Nat → List Char → Option (List (String × JsonVal) × List Char)
  | 0, _ => none
  | fuel + 1, l =>
    match skipWs l with
    | '\x7d' :: rest => some ([], rest)
    | l' => do
      let (kv, r) ← parseMember fuel l'
      let (kvs, r2) ← parseObjRest fuel r
      some ((kvs.foldl (fun m p => setKey m p.1 p.2) (setKey [] kv.1 kv.2), r2))

/-- Object continuation: a comma-separated member tail or the closing brace;
returns the remaining members in order. -/
def parseObjRest : Nat → List Char → Option (List (String × JsonVal) × List Char)
  | 0, _ => none
  | fuel + 1, l =>
    match skipWs l with
    | '\x7d' :: rest => some ([], rest)
    | ',' :: rest => do
      let (kv, r) ← parseMember fuel rest
      let (kvs, r2) ← parseObjRest fuel r
      some (kv :: kvs, r2)
    | _ => none

end

/-- `json.loads`: parse one JSON document and require that nothing but
whitespace remains. -/
def json_loads (s : String) : Option JsonVal :=
  match parseVal (2 * (s.data.length + 1)) s.data with
  | some (v, rest) => if (skipWs rest).isEmpty then some v else none
  | none => none

/-- Index of the first occurrence of a character, if any. -/
def findChar (c : Char) : List Char → Option Nat
  | [] => none
  | x :: xs => if x = c then some 0 else (findChar c xs).map (· + 1)

/-- Index of the last occurrence of a character, if any. -/
def rfindChar (c : Char) (l : List Char) : Option Nat :=
  (findChar c l.reverse).map (fun i => l.length - 1 - i)

/-- Python `str.find`: first index of the character, or `-1`. -/
def pyFind (l : List Char) (c : Char) : Int :=
  match findChar c l with
  | some i => (i : Int)
  | none => -1

/-- Python `str.rfind`: last index of the character, or `-1`. -/
def pyRfind (l : List Char) (c : Char) : Int :=
  match rfindChar c l with
  | some i => (i : Int)
  | none => -1

/-- Python slice `s[i:j]` for character indices. -/
def sliceStr (s : String) (i j : Nat) : String :=
  ((s.data.drop i).take (j - i)).asString

/-- The brace-bounded substring the pipeline cuts out of a raw agent or
GitIngest response: `start_idx` is `response.find` of the opening brace,
`end_idx` is `response.rfind` of the closing brace plus one; the slice
`response[start_idx:end_idx]` is returned only when
`start_idx >= 0 and end_idx > start_idx`. -/
def braceSlice (response : String) : Option String :=
  let l := response.data
  let start_idx := pyFind l '\x7b'
  let end_idx := pyRfind l '\x7d' + 1
  if start_idx ≥ 0 ∧ end_idx > start_idx then
    some (((l.drop start_idx.toNat).take (end_idx - start_idx).toNat).asString)
  else none

/-- ResponseExtractor: cut the brace-bounded substring out of the raw text
and parse it with `json_loads`; `none` is the `ExtractionFailed` signal. -/
def extract_json (response : String) : Option JsonVal :=
  (braceSlice response).bind json_loads

/-- Python `str.strip()`: remove leading and trailing whitespace. -/
def pyStrip (s : String) : String :=
  (((s.data.dropWhile Char.isWhitespace).reverse.dropWhile Char.isWhitespace).reverse).asString

/-! ## URLResolver: `_parse_github_url` (identical in both source files)

The three patterns are
`github\.com/([^/]+)/([^/]+?)(?:\.git)?/?$`,
`github\.com/([^/]+)/([^/]+)/tree/` and
`github\.com/([^/]+)/([^/]+)/blob/`, tried in this order with `re.search`.
Every character outside the groups is literal and the character classes
exclude the slash, so backtracking is deterministic: for each occurrence of
the literal `github.com/` the rest of the pattern either matches in exactly
one way or fails, and `re.search` takes the leftmost occurrence at which it
matches.  `suffixesAfter` enumerates, in order, the input suffixes that
follow each occurrence of the literal. -/

def suffixesAfter (marker : List Char) : List Char → List (List Char)
  | [] => []
  | x :: xs =>
    (if marker.isPrefixOf (x :: xs) then [(x :: xs).drop marker.length] else [])
      ++ suffixesAfter marker xs

def firstSome (f : α → Option β) : List α → Option β
  | [] => none
  | x :: xs =>
    match f x with
    | some b => some b
    | none => firstSome f xs

def ghMarker : List Char := "github.com/".data

/-- The optional trailing slash consumed by the final `/?$` of pattern 1. -/
def stripTrailSlash (t : List Char) : List Char :=
  if t.getLast? = some '/' then t.dropLast else t

/-- The lazy group `([^/]+?)` followed by the optional `(?:\.git)?`: the
shortest nonempty capture leaves a final `.git` (when something nonempty
precedes it) to the optional literal. -/
def lazyGroup2 (t' : List Char) : List Char :=
  if 4 < t'.length ∧ ".git".data.isSuffixOf t' then t'.take (t'.length - 4) else t'

/-- Tail of pattern 1 after the `github.com/` literal:
`([^/]+)/([^/]+?)(?:\.git)?/?$`. -/
def tailMatch1 (r : List Char) : Option (String × String) :=
  let seg1 := r.takeWhile (fun c => !(c == '/'))
  match r.drop seg1.length with
  | '/' :: t =>
    if seg1.isEmpty then none
    else
      let t' := stripTrailSlash t
      if t'.isEmpty ∨ t'.contains '/' then none
      else some (seg1.asString, (lazyGroup2 t').asString)
  | _ => none

/-- Tail of patterns 2 and 3 after the `github.com/` literal:
`([^/]+)/([^/]+)/lit` with `lit` the literal `tree/` or `blob/`. -/
def tailMatchLit (lit : List Char) (r : List Char) : Option (String × String) :=
  let seg1 := r.takeWhile (fun c => !(c == '/'))
  match r.drop seg1.length with
  | '/' :: t =>
    if seg1.isEmpty then none
    else
      let seg2 := t.takeWhile (fun c => !(c == '/'))
      match t.drop seg2.length with
      | '/' :: u =>
        if seg2.isEmpty then none
        else if lit.isPrefixOf u then some (seg1.asString, seg2.asString) else none
      | _ => none
  | _ => none

def searchPat1 (url : String) : Option (String × String) :=
  firstSome tailMatch1 (suffixesAfter ghMarker url.data)

def searchPat2 (url : String) : Option (String × String) :=
  firstSome (tailMatchLit "tree/".data) (suffixesAfter ghMarker url.data)

def searchPat3 (url : String) : Option (String × String) :=
  firstSome (tailMatchLit "blob/".data) (suffixesAfter ghMarker url.data)

/-- `_parse_github_url`: try the three patterns in order; on a match return
`(match.group(1), match.group(2))`, otherwise `(None, None)`. -/
def parse_github_url (url : String) : Option String × Option String :=
  match searchPat1 url with
  | some (a, b) => (some a, some b)
  | none =>
    match searchPat2 url with
    | some (a, b) => (some a, some b)
    | none =>
      match searchPat3 url with
      | some (a, b) => (some a, some b)
      | none => (none, none)

/-- Python truthiness of an `Optional[str]`: `None` and the empty string are
falsy. -/
def pyTruthyStr : Option String → Bool
  | none => false
  | some s => !(s == "")

/-- The validity guard at `src/nu/analyze_mcp_repository.py:70`, verbatim:
`if not owner or repo: raise ValueError(...)`. -/
def nu_url_guard (owner repo : Option String) : Bool :=
  !(pyTruthyStr owner) || pyTruthyStr repo

/-- `analyze_repository` up to its first fallible step: parse the URL and
raise `ValueError` when `nu_url_guard` fires.  The remaining pipeline steps
are never reached on any input (see `c2_url_guard`), so they are modelled by
the `ok` continuation. -/
def analyze_repository_check (github_url : String) : Except String Unit :=
  let pr := parse_github_url github_url
  if nu_url_guard pr.1 pr.2 then Except.error ("Invalid GitHub URL: " ++ github_url)
  else Except.ok ()

/-- `main` of `src/nu/analyze_mcp_repository.py`: any exception escaping
`analyze_repository` is caught and turned into `sys.exit(1)`; otherwise the
run finishes with exit code 0. -/
def main_exit_code (github_url : String) : Nat :=
  match analyze_repository_check github_url with
  | .error _ => 1
  | .ok _ => 0

/-! ## IngestionClient: `_get_repository_summary` and `_extract_file_contents`

An external `subprocess.run` call either times out
(`subprocess.TimeoutExpired`) or exits with a return code and captured
stdout; that outcome is the function's environment parameter. -/

inductive CallOutcome : Type where
  | timeout : CallOutcome
  | exited : Int → String → CallOutcome

/-- The degraded RepositorySummary literal used by every failure branch of
`_get_repository_summary`, with the branch's reason as `description`. -/
def degradedSummary (owner repo reason : String) : JsonVal :=
  .obj [("name", .str (owner ++ "/" ++ repo)), ("description", .str reason),
        ("files", .arr []), ("token_count", .num 0)]

/-- `_get_repository_summary`: on exit code 0 the stripped stdout is scanned
for a brace-bounded JSON payload; a missing payload, a JSON decode error, a
non-zero exit or a timeout each produce a degraded summary instead of an
exception (the `json.JSONDecodeError` handler is the function's own
`except` clause). -/
def get_repository_summary (owner repo : String) (call : CallOutcome) : JsonVal :=
  match call with
  | .timeout => degradedSummary owner repo "Analysis timed out"
  | .exited rc out =>
    if rc = 0 then
      match braceSlice (pyStrip out) with
      | some jstr =>
        match json_loads jstr with
        | some v => v
        | none => degradedSummary owner repo "JSON parse failed"
      | none => degradedSummary owner repo "Analysis failed"
    else degradedSummary owner repo "GitIngest call failed"

/-- `_extract_file_contents`: empty request short-circuits to an empty map;
otherwise the call's response must parse to a JSON object, and only the
requested paths present in that object are copied into the result. -/
def extract_file_contents (file_paths : List String) (call : CallOutcome) :
    List (String × JsonVal) :=
  if file_paths.isEmpty then []
  else
    match call with
    | .timeout => []
    | .exited rc out =>
      if rc = 0 then
        match braceSlice (pyStrip out) with
        | some jstr =>
          match json_loads jstr with
          | some (.obj files_data) =>
            file_paths.foldl
              (fun acc p =>
                match getKey files_data p with
                | some v => setKey acc p v
                | none => acc) []
          | some _ => []
          | none => []
        | none => []
      else []

/-! ## AgentRegistry: `_detect_agents` and `_select_best_agent` -/

inductive Agent : Type where
  | gemini : Agent
  | codex : Agent
  | claude : Agent
deriving DecidableEq

/-- Outcome of one `subprocess.run(['which', name])` probe: `returncode == 0`
means available; an exception (`none`) is caught and treated as unavailable. -/
def probeOk : Option Int → Bool
  | some rc => rc == 0
  | none => false

structure AgentAvailability : Type where
  gemini : Bool
  codex : Bool
  claude : Bool

/-- `_detect_agents`: probe `gemini` and `codex`; `claude` is always marked
available (the current execution context). -/
def detect_agents (geminiProbe codexProbe : Option Int) : AgentAvailability :=
  { gemini := probeOk geminiProbe, codex := probeOk codexProbe, claude := true }

def availOf (a : AgentAvailability) : Agent → Bool
  | .gemini => a.gemini
  | .codex => a.codex
  | .claude => a.claude

/-- `_select_best_agent`: gemini if available, else codex if available, else
claude. -/
def select_best_agent (a : AgentAvailability) : Agent :=
  if a.gemini then .gemini else if a.codex then .codex else .claude

/-! ## ConfigSynthesizer: `_determine_priority_deployment`,
`_analyze_deployment_options` and `_fallback_config` -/

/-- The four availability booleans of the `deployment` mapping built by
`_analyze_deployment_options`. -/
structure DeploymentSignals : Type where
  smithery : Bool
  npm : Bool
  localDeploy : Bool
  docker : Bool

/-- `_analyze_deployment_options` as a function of which key files were
retrieved: `package.json` enables npm and local, `Dockerfile` or
`docker-compose.yml` enables docker, and smithery is set available
unconditionally. -/
def analyze_deployment_options (filePaths : List String) : DeploymentSignals :=
  { smithery := true
    npm := filePaths.contains "package.json"
    localDeploy := filePaths.contains "package.json"
    docker := filePaths.contains "Dockerfile" || filePaths.contains "docker-compose.yml" }

/-- `_determine_priority_deployment`: first available among smithery, npm,
local, docker, in this order; else `"manual"`. -/
def determine_priority_deployment (d : DeploymentSignals) : String :=
  if d.smithery then "smithery"
  else if d.npm then "npm"
  else if d.localDeploy then "local"
  else if d.docker then "docker"
  else "manual"

/-- `_fallback_config`: take the loaded template record, stamp
`analysis_date` and `generated_by` into its `metadata` dict, and return it.
The template is the function's environment parameter (it is read from the
template file); a template whose `metadata` entry is not a dict makes the
Python raise, which is the `none` case. -/
def fallback_config (template : JsonVal) (now : String) : Option JsonVal :=
  match template with
  | .obj fields =>
    match getKey fields "metadata" with
    | some (.obj mfields) =>
      some (.obj (setKey fields "metadata"
        (.obj (setKey (setKey mfields "analysis_date" (.str now))
          "generated_by" (.str "fallback_generator")))))
    | _ => none
  | _ => none

/-- The seven required top-level sections of a ServerConfiguration. -/
def requiredSections : List String :=
  ["metadata", "deployment", "automation", "integration", "security", "monitoring",
   "maintenance"]

/-! ## KeyFileSelector: `_identify_key_files` (nu version) -/

/-- The fixed priority list of `_identify_key_files`, in source order. -/
def priority_patterns : List String :=
  ["package.json", "README.md", "src/index.ts", "src/index.js", "src/server.ts",
   "src/server.js", "src/main.ts", "src/main.js", "index.ts", "index.js",
   "server.ts", "server.js", "mcp.json", "tsconfig.json", "src/types.ts",
   "src/types.d.ts", "src/tools/", "src/resources/", "lib/index.ts",
   "lib/index.js", "dist/index.js", "Dockerfile", "docker-compose.yml",
   "docs/README.md", "docs/API.md", "docs/api.md", "CHANGELOG.md", "LICENSE"]

/-- Python substring containment `p in l`. -/
def isSubList (p : List Char) : List Char → Bool
  | [] => p.isEmpty
  | c :: t => p.isPrefixOf (c :: t) || isSubList p t

/-- How one priority pattern is matched against a path: a pattern containing
a slash by substring containment (`pattern in file_path`), any other pattern
by suffix (`file_path.endswith(pattern)`, at the code-point level). -/
def patMatches (pat path : String) : Bool :=
  if pat.data.contains '/' then isSubList pat.data path.data
  else pat.data.isSuffixOf path.data

/-- Path strings gathered from the tree response: entries of a `tree` list
that are objects carrying a `path` string. -/
def treePaths (repo_tree : JsonVal) : List String :=
  match jGet repo_tree "tree" with
  | some (.arr items) =>
    items.filterMap fun it =>
      match it with
      | .obj fs =>
        match getKey fs "path" with
        | some (.str p) => some p
        | _ => none
      | _ => none
  | _ => []

/-- Path strings gathered from the summary response's `files` list. -/
def summaryFiles (repo_summary : JsonVal) : List String :=
  match jGet repo_summary "files" with
  | some (.arr items) =>
    items.filterMap fun it =>
      match it with
      | .str p => some p
      | _ => none
  | _ => []

/-- The inner loop of `_identify_key_files` for one pattern: append, in tree
order, every matching file not yet selected. -/
def addPat (files : List String) (acc : List String) (pat : String) : List String :=
  files.foldl
    (fun acc2 f => if patMatches pat f && !(acc2.contains f) then acc2 ++ [f] else acc2) acc

/-- The pattern loop of `_identify_key_files` over the collected file list. -/
def selectFiles (files : List String) : List String :=
  priority_patterns.foldl (addPat files) []

/-- `_identify_key_files`: collect tree paths then summary files, run the
priority-pattern selection, and truncate to the first 15 entries. -/
def identify_key_files (repo_tree repo_summary : JsonVal) : List String :=
  (selectFiles (treePaths repo_tree ++ summaryFiles repo_summary)).take 15

/-- Index of the first priority pattern matching a path (the list length
when none does); the specification-side ranking key. -/
def firstMatchIdx (pats : List String) (f : String) : Nat :=
  match pats with
  | [] => 0
  | pat :: rest => if patMatches pat f then 0 else firstMatchIdx rest f + 1

/-- Whether some pattern of the list matches the path. -/
def matchedBy (pats : List String) (f : String) : Bool :=
  pats.any (fun pat => patMatches pat f)

/-- Ranking key ordering used by the selector's priority-list invariant. -/
def rankLE (a b : String) : Prop :=
  firstMatchIdx priority_patterns a ≤ firstMatchIdx priority_patterns b

/-- Example tree input of C4: paths `x/package.json`, `README.md`,
`src/tools/a.ts`. -/
def exTree : JsonVal :=
  .obj [("tree", .arr [.obj [("path", .str "x/package.json")],
    .obj [("path", .str "README.md")], .obj [("path", .str "src/tools/a.ts")]])]

/-- Example summary input of C4: no declared files. -/
def exSummary : JsonVal :=
  .obj [("files", .arr [])]

theorem getKey_setKey_self (m : List (String × JsonVal)) (k : String) (v : JsonVal) :
    getKey (setKey m k v) k = some v := by
  induction m with
  | nil => simp [setKey, getKey]
  | cons hd tl ih =>
    obtain ⟨k', v'⟩ := hd
    by_cases h : k' = k
    · simp [setKey, getKey, h]
    · simp [setKey, getKey, h, ih]

theorem getKey_setKey_other (m : List (String × JsonVal)) (k k' : String) (v : JsonVal)
    (hne : k' ≠ k) : getKey (setKey m k v) k' = getKey m k' := by
  have hne' : ¬ k = k' := fun h => hne h.symm
  induction m with
  | nil => simp [setKey, getKey, hne']
  | cons hd tl ih =>
    obtain ⟨k₀, v₀⟩ := hd
    by_cases h : k₀ = k
    · subst h
      simp [setKey, getKey, hne']
    · by_cases h2 : k₀ = k'
      · subst h2
        simp [setKey, getKey, hne]
      · simp [setKey, getKey, h, h2, ih]

theorem findChar_get (c : Char) :
    ∀ (l : List Char) (i : Nat), findChar c l = some i → l.get? i = some c := by
  intro l
  induction l with
  | nil => intro i h; simp [findChar] at h
  | cons x xs ih =>
    intro i h
    by_cases hx : x = c
    · simp [findChar, hx] at h
      subst h
      simp [hx]
    · simp [findChar, hx] at h
      obtain ⟨j, hj, hji⟩ := h
      subst hji
      simpa using ih j hj

theorem findChar_lt_length (c : Char) :
    ∀ (l : List Char) (i : Nat), findChar c l = some i → i < l.length := by
  intro l i h
  have := findChar_get c l i h
  exact List.get?_eq_some.mp this |>.1

theorem rfindChar_get (c : Char) (l : List Char) (j : Nat) (h : rfindChar c l = some j) :
    l.get? j = some c := by
  simp only [rfindChar, Option.map_eq_some'] at h
  obtain ⟨i, hi, hij⟩ := h
  have hlt : i < l.reverse.length := findChar_lt_length c l.reverse i hi
  have hget := findChar_get c l.reverse i hi
  rw [List.get?_reverse (by simpa using hlt)] at hget
  rw [← hij]
  exact hget

theorem rfindChar_lt_length (c : Char) (l : List Char) (j : Nat)
    (h : rfindChar c l = some j) : j < l.length := by
  have := rfindChar_get c l j h
  exact List.get?_eq_some.mp this |>.1

theorem asString_ne_empty {l : List Char} (h : l ≠ []) : l.asString ≠ "" := by
  intro hc
  apply h
  have h2 := congrArg String.data hc
  simpa [List.asString] using h2

theorem firstSome_sound {α β : Type} (f : α → Option β) :
    ∀ (l : List α) (x : β), firstSome f l = some x → ∃ e ∈ l, f e = some x := by
  intro l
  induction l with
  | nil => intro x h; simp [firstSome] at h
  | cons a as ih =>
    intro x h
    unfold firstSome at h
    cases hfa : f a with
    | some b =>
      refine ⟨a, by simp, ?_⟩
      rw [hfa] at h ⊢
      exact h
    | none =>
      rw [hfa] at h
      obtain ⟨e, he, hfe⟩ := ih x h
      exact ⟨e, by simp [he], hfe⟩

theorem lazyGroup2_ne_nil {t' : List Char} (h : t' ≠ []) : lazyGroup2 t' ≠ [] := by
  unfold lazyGroup2
  split
  case isTrue hc =>
    intro he
    have := congrArg List.length he
    simp [List.length_take] at this
    omega
  case isFalse => exact h

theorem tailMatch1_sound (r : List Char) (a b : String)
    (h : tailMatch1 r = some (a, b)) : a ≠ "" ∧ b ≠ "" := by
  rw [tailMatch1] at h
  dsimp only at h
  split at h
  case _ t heq =>
    split at h
    case isTrue => exact absurd h (by simp)
    case isFalse hseg =>
      split at h
      case isTrue => exact absurd h (by simp)
      case isFalse hne =>
        push_neg at hne
        obtain ⟨hne1, _⟩ := hne
        rw [Option.some.injEq, Prod.mk.injEq] at h
        obtain ⟨ha, hb⟩ := h
        refine ⟨ha ▸ asString_ne_empty ?_, hb ▸ asString_ne_empty ?_⟩
        · intro hc
          simp [hc] at hseg
        · exact lazyGroup2_ne_nil (by simpa using hne1)
  case _ => exact absurd h (by simp)

theorem tailMatchLit_sound (lit : List Char) (r : List Char) (a b : String)
    (h : tailMatchLit lit r = some (a, b)) : a ≠ "" ∧ b ≠ "" := by
  rw [tailMatchLit] at h
  dsimp only at h
  split at h
  case _ t heq =>
    split at h
    case isTrue => exact absurd h (by simp)
    case isFalse hseg =>
      split at h
      case _ u hequ =>
        split at h
        case isTrue => exact absurd h (by simp)
        case isFalse hseg2 =>
          split at h
          case isTrue =>
            rw [Option.some.injEq, Prod.mk.injEq] at h
            obtain ⟨ha, hb⟩ := h
            refine ⟨ha ▸ asString_ne_empty ?_, hb ▸ asString_ne_empty ?_⟩
            · intro hc
              simp [hc] at hseg
            · intro hc
              simp [hc] at hseg2
          case isFalse => exact absurd h (by simp)
      case _ => exact absurd h (by simp)
  case _ => exact absurd h (by simp)

/-- Either some pattern matched and both captures are nonempty strings, or
no pattern matched and the result is `(None, None)`. -/
theorem parse_github_url_cases (url : String) :
    (∃ a b, parse_github_url url = (some a, some b) ∧ a ≠ "" ∧ b ≠ "") ∨
      parse_github_url url = (none, none) := by
  unfold parse_github_url
  cases h1 : searchPat1 url with
  | some p =>
    obtain ⟨a, b⟩ := p
    obtain ⟨e, _, he⟩ := firstSome_sound _ _ _ h1
    obtain ⟨ha, hb⟩ := tailMatch1_sound e a b he
    exact Or.inl ⟨a, b, rfl, ha, hb⟩
  | none =>
    cases h2 : searchPat2 url with
    | some p =>
      obtain ⟨a, b⟩ := p
      obtain ⟨e, _, he⟩ := firstSome_sound _ _ _ h2
      obtain ⟨ha, hb⟩ := tailMatchLit_sound _ e a b he
      exact Or.inl ⟨a, b, rfl, ha, hb⟩
    | none =>
      cases h3 : searchPat3 url with
      | some p =>
        obtain ⟨a, b⟩ := p
        obtain ⟨e, _, he⟩ := firstSome_sound _ _ _ h3
        obtain ⟨ha, hb⟩ := tailMatchLit_sound _ e a b he
        exact Or.inl ⟨a, b, rfl, ha, hb⟩
      | none => exact Or.inr rfl

/-- The nu guard fires on every URL: on a failed parse `not owner` is true,
and on a successful parse `repo` is a nonempty string, hence truthy. -/
theorem nu_url_guard_always (url : String) :
    nu_url_guard (parse_github_url url).1 (parse_github_url url).2 = true := by
  rcases parse_github_url_cases url with ⟨a, b, hpr, _, hb⟩ | hpr
  · rw [hpr]
    simp [nu_url_guard, pyTruthyStr, hb]
  · rw [hpr]
    simp [nu_url_guard, pyTruthyStr]

theorem addPat_append (files : List String) :
    ∀ (acc : List String) (pat : String), ∃ new, addPat files acc pat = acc ++ new ∧
      ∀ x ∈ new, patMatches pat x = true ∧ x ∈ files ∧ x ∉ acc := by
  induction files with
  | nil =>
    intro acc pat
    exact ⟨[], by simp [addPat], by simp⟩
  | cons f fs ih =>
    intro acc pat
    have hstep : addPat (f :: fs) acc pat =
        addPat fs (if patMatches pat f && !(acc.contains f) then acc ++ [f] else acc) pat := by
      simp [addPat, List.foldl_cons]
    by_cases hc : patMatches pat f && !(acc.contains f)
    · rw [hstep, if_pos hc]
      obtain ⟨new', hacc, hnew⟩ := ih (acc ++ [f]) pat
      refine ⟨f :: new', by rw [hacc]; simp, ?_⟩
      intro x hx
      rcases List.mem_cons.mp hx with hx | hx
      · subst hx
        simp only [Bool.and_eq_true, Bool.not_eq_true'] at hc
        refine ⟨hc.1, by simp, ?_⟩
        intro hmem
        have : acc.contains x = true := by
          simpa [List.contains, List.elem_iff] using hmem
        rw [this] at hc
        exact absurd hc.2 (by simp)
      · obtain ⟨h1, h2, h3⟩ := hnew x hx
        exact ⟨h1, by simp [h2], fun hm => h3 (by simp [hm])⟩
    · rw [hstep, if_neg hc]
      obtain ⟨new', hacc, hnew⟩ := ih acc pat
      refine ⟨new', hacc, ?_⟩
      intro x hx
      obtain ⟨h1, h2, h3⟩ := hnew x hx
      exact ⟨h1, by simp [h2], h3⟩

theorem addPat_mono (files acc : List String) (pat : String) {x : String}
    (h : x ∈ acc) : x ∈ addPat files acc pat := by
  obtain ⟨new, hacc, _⟩ := addPat_append files acc pat
  rw [hacc]
  exact List.mem_append_left _ h

theorem addPat_complete (files : List String) :
    ∀ (acc : List String) (pat x : String), x ∈ files → patMatches pat x = true →
      x ∈ addPat files acc pat := by
  induction files with
  | nil => intro acc pat x h; simp at h
  | cons f fs ih =>
    intro acc pat x hx hm
    have hstep : addPat (f :: fs) acc pat =
        addPat fs (if patMatches pat f && !(acc.contains f) then acc ++ [f] else acc) pat := by
      simp [addPat, List.foldl_cons]
    rw [hstep]
    rcases List.mem_cons.mp hx with hx | hx
    · subst hx
      by_cases hc : patMatches pat x && !(acc.contains x)
      · rw [if_pos hc]
        exact addPat_mono _ _ _ (by simp)
      · rw [if_neg hc]
        have hcont : acc.contains x = true := by
          rcases Bool.and_eq_false_iff.mp (Bool.eq_false_iff.mpr hc) with h | h
          · rw [hm] at h; exact absurd h (by simp)
          · simpa using h
        exact addPat_mono _ _ _ (by simpa [List.contains, List.elem_iff] using hcont)
    · exact ih _ pat x hx hm

theorem addPat_nodup (files : List String) :
    ∀ (acc : List String) (pat : String), acc.Nodup → (addPat files acc pat).Nodup := by
  induction files with
  | nil => intro acc pat h; simpa [addPat] using h
  | cons f fs ih =>
    intro acc pat h
    have hstep : addPat (f :: fs) acc pat =
        addPat fs (if patMatches pat f && !(acc.contains f) then acc ++ [f] else acc) pat := by
      simp [addPat, List.foldl_cons]
    rw [hstep]
    by_cases hc : patMatches pat f && !(acc.contains f)
    · rw [if_pos hc]
      apply ih
      simp only [Bool.and_eq_true, Bool.not_eq_true'] at hc
      have : f ∉ acc := by
        intro hm
        have : acc.contains f = true := by simpa [List.contains, List.elem_iff] using hm
        rw [this] at hc
        exact absurd hc.2 (by simp)
      simp [List.nodup_append, h, this]
    · rw [if_neg hc]
      exact ih _ _ h

theorem matchedBy_append (d1 d2 : List String) (x : String) :
    matchedBy (d1 ++ d2) x = (matchedBy d1 x || matchedBy d2 x) := by
  simp [matchedBy, List.any_append]

theorem firstMatchIdx_lt_of_matched :
    ∀ (done : List String) (ext : List String) (x : String), matchedBy done x = true →
      firstMatchIdx (done ++ ext) x < done.length := by
  intro done
  induction done with
  | nil => intro ext x h; simp [matchedBy] at h
  | cons d ds ih =>
    intro ext x h
    by_cases hd : patMatches d x
    · simp [firstMatchIdx, hd]
    · have : matchedBy ds x = true := by
        simpa [matchedBy, hd] using h
      have hih := ih ext x this
      simp only [List.cons_append, firstMatchIdx, hd, List.length_cons, List.append_eq,
        if_false, Bool.false_eq_true]
      omega

theorem firstMatchIdx_eq_of_not_matched :
    ∀ (done : List String) (pat : String) (rest : List String) (x : String),
      matchedBy done x = false → patMatches pat x = true →
      firstMatchIdx (done ++ pat :: rest) x = done.length := by
  intro done
  induction done with
  | nil => intro pat rest x _ hm; simp [firstMatchIdx, hm]
  | cons d ds ih =>
    intro pat rest x hnm hm
    have hd : patMatches d x = false := by
      by_contra hc
      simp only [Bool.not_eq_false] at hc
      simp [matchedBy, hc] at hnm
    have hds : matchedBy ds x = false := by
      simp only [matchedBy, List.any_cons, Bool.or_eq_false_iff] at hnm
      exact hnm.2
    have hih := ih pat rest x hds hm
    simp only [List.cons_append, firstMatchIdx, hd, List.length_cons, List.append_eq,
      if_false, Bool.false_eq_true]
    omega

theorem selectGo_inv (files : List String) :
    ∀ (pats done acc : List String),
      priority_patterns = done ++ pats →
      (∀ x ∈ acc, x ∈ files ∧ matchedBy done x = true) →
      (∀ x ∈ files, matchedBy done x = true → x ∈ acc) →
      acc.Pairwise rankLE →
      acc.Nodup →
      (∀ x ∈ pats.foldl (addPat files) acc,
          x ∈ files ∧ matchedBy priority_patterns x = true) ∧
        (pats.foldl (addPat files) acc).Pairwise rankLE ∧
        (pats.foldl (addPat files) acc).Nodup := by
  intro pats
  induction pats with
  | nil =>
    intro done acc hsplit h1 h2 h3 h4
    rw [List.append_nil] at hsplit
    subst hsplit
    exact ⟨h1, h3, h4⟩
  | cons pat rest ih =>
    intro done acc hsplit h1 h2 h3 h4
    rw [List.foldl_cons]
    obtain ⟨new, hacc, hnew⟩ := addPat_append files acc pat
    have hnewidx : ∀ x ∈ new, firstMatchIdx priority_patterns x = done.length := by
      intro x hx
      obtain ⟨hm, hf, hna⟩ := hnew x hx
      have hnd : matchedBy done x = false := by
        by_contra hc
        simp only [Bool.not_eq_false] at hc
        exact hna (h2 x hf hc)
      rw [hsplit]
      exact firstMatchIdx_eq_of_not_matched done pat rest x hnd hm
    have h1' : ∀ x ∈ addPat files acc pat, x ∈ files ∧ matchedBy (done ++ [pat]) x = true := by
      intro x hx
      rw [hacc] at hx
      rcases List.mem_append.mp hx with hx | hx
      · obtain ⟨hf, hm⟩ := h1 x hx
        exact ⟨hf, by simp [matchedBy_append, hm]⟩
      · obtain ⟨hm, hf, _⟩ := hnew x hx
        refine ⟨hf, ?_⟩
        rw [matchedBy_append]
        have : matchedBy [pat] x = true := by simp [matchedBy, hm]
        simp [this]
    have h2' : ∀ x ∈ files, matchedBy (done ++ [pat]) x = true → x ∈ addPat files acc pat := by
      intro x hf hm
      rw [matchedBy_append] at hm
      rcases Bool.or_eq_true_iff.mp hm with hm | hm
      · exact addPat_mono _ _ _ (h2 x hf hm)
      · have : patMatches pat x = true := by simpa [matchedBy] using hm
        exact addPat_complete files acc pat x hf this
    have h3' : (addPat files acc pat).Pairwise rankLE := by
      rw [hacc]
      rw [List.pairwise_append]
      refine ⟨h3, ?_, ?_⟩
      · apply List.pairwise_of_forall_mem_list
        intro a ha b hb
        unfold rankLE
        rw [hnewidx a ha, hnewidx b hb]
      · intro a ha b hb
        obtain ⟨_, hmd⟩ := h1 a ha
        have hlt : firstMatchIdx priority_patterns a < done.length := by
          rw [hsplit]
          exact firstMatchIdx_lt_of_matched done (pat :: rest) a hmd
        unfold rankLE
        rw [hnewidx b hb]
        exact Nat.le_of_lt hlt
    have h4' : (addPat files acc pat).Nodup := addPat_nodup files acc pat h4
    have hsplit' : priority_patterns = (done ++ [pat]) ++ rest := by
      rw [hsplit, List.append_assoc]
      rfl
    have := ih (done ++ [pat]) (addPat files acc pat) hsplit' h1' h2' h3' h4'
    simpa using this

/-- The pattern-loop output over any collected file list: every entry comes
from the file list and matches a priority pattern, the order is sorted by
first matching pattern, and there are no duplicates. -/
theorem selectFiles_spec (files : List String) :
    (∀ x ∈ selectFiles files, x ∈ files ∧ matchedBy priority_patterns x = true) ∧
      (selectFiles files).Pairwise rankLE ∧ (selectFiles files).Nodup := by
  have := selectGo_inv files priority_patterns [] []
    (by simp) (by simp) (by simp [matchedBy]) (by simp) (by simp)
  simpa [selectFiles] using this

theorem braceSlice_of_lt (s : String) (i j : Nat)
    (hf : findChar '\x7b' s.data = some i) (hr : rfindChar '\x7d' s.data = some j)
    (hij : i < j) : braceSlice s = some (sliceStr s i (j + 1)) := by
  unfold braceSlice
  simp only [pyFind, pyRfind, hf, hr]
  rw [if_pos ⟨by omega, by omega⟩]
  have h1 : ((i : Int)).toNat = i := by omega
  have h2 : ((j : Int) + 1 - (i : Int)).toNat = j + 1 - i := by omega
  rw [h1, h2]
  rfl

/-- C1: the end-to-end run on the valid URL `https://github.com/acme/widget-mcp`
does not exit 0: the guard `if not owner or repo` at
`src/nu/analyze_mcp_repository.py:70` is true for the successfully parsed
URL, so `analyze_repository` raises `ValueError` and `main` exits 1 without
writing a record.  (The scripts variant checks `not owner or not repo`,
showing the intended test.) -/
theorem c1_valid_url_run_aborts :
    main_exit_code "https://github.com/acme/widget-mcp" = 1 ∧
      analyze_repository_check "https://github.com/acme/widget-mcp" =
        Except.error "Invalid GitHub URL: https://github.com/acme/widget-mcp" := by
  constructor <;> rfl

/-- C2: in `src/nu/analyze_mcp_repository.py`, failure is not raised exactly
when no pattern matches: the URL `https://github.com/acme/widget-mcp` is
matched by the first pattern, yet the guard fires and the run is aborted —
indeed it is aborted for every input URL. -/
theorem c2_url_guard_always_fatal :
    parse_github_url "https://github.com/acme/widget-mcp" = (some "acme", some "widget-mcp") ∧
      nu_url_guard (some "acme") (some "widget-mcp") = true ∧
      (∀ url, ∃ msg, analyze_repository_check url = Except.error msg) := by
  refine ⟨rfl, rfl, ?_⟩
  intro url
  refine ⟨"Invalid GitHub URL: " ++ url, ?_⟩
  simp [analyze_repository_check, nu_url_guard_always url]

/-- C9: URL parsing returns either both components — non-empty strings
captured by the same pattern match — or neither; in particular one
component is missing exactly when the other is. -/
theorem c9_parse_both_or_neither :
    ∀ url, ((∃ a b, parse_github_url url = (some a, some b) ∧ a ≠ "" ∧ b ≠ "") ∨
        parse_github_url url = (none, none)) ∧
      ((parse_github_url url).1 = none ↔ (parse_github_url url).2 = none) := by
  intro url
  rcases parse_github_url_cases url with ⟨a, b, h, ha, hb⟩ | h
  · exact ⟨Or.inl ⟨a, b, h, ha, hb⟩, by rw [h]; simp⟩
  · exact ⟨Or.inr h, by rw [h]⟩

/-- C3: the response extractor returns the parse of the substring between
the first opening brace and the last closing brace when the former precedes
the latter, and signals `ExtractionFailed` (`none`) otherwise — including
when the parse itself fails, when there is no opening brace, and when an
opening brace is unmatched; the listed concrete inputs behave as claimed. -/
theorem c3_response_extractor :
    (∀ (s : String) (i j : Nat), findChar '\x7b' s.data = some i →
        rfindChar '\x7d' s.data = some j → i < j →
        extract_json s = json_loads (sliceStr s i (j + 1))) ∧
      (∀ s : String, (findChar '\x7b' s.data = none ∨ rfindChar '\x7d' s.data = none) →
        extract_json s = none) ∧
      (∀ (s : String) (i j : Nat), findChar '\x7b' s.data = some i →
        rfindChar '\x7d' s.data = some j → ¬ i < j → extract_json s = none) ∧
      extract_json "noise \x7b\"a\":1\x7d trailing" = some (JsonVal.obj [("a", JsonVal.num 1)]) ∧
      extract_json "no opening brace at all" = none ∧
      extract_json "unmatched \x7b only" = none := by
  refine ⟨?_, ?_, ?_, ?_, ?_, ?_⟩
  · intro s i j hf hr hij
    unfold extract_json
    rw [braceSlice_of_lt s i j hf hr hij]
    rfl
  · intro s h
    unfold extract_json braceSlice
    rcases h with h | h
    · simp only [pyFind, h]
      rw [if_neg]
      · rfl
      · intro hc
        have := hc.1
        omega
    · simp only [pyRfind, h]
      rw [if_neg]
      · rfl
      · intro hc
        have h1 := hc.1
        have h2 := hc.2
        omega
  · intro s i j hf hr hnl
    rcases Nat.lt_or_ge j i with hji | hji
    · unfold extract_json braceSlice
      simp only [pyFind, pyRfind, hf, hr]
      rw [if_neg]
      · rfl
      · intro hc
        have := hc.2
        omega
    · have hij : i = j := by omega
      subst hij
      have h1 := findChar_get '\x7b' s.data i hf
      have h2 := rfindChar_get '\x7d' s.data i hr
      rw [h1] at h2
      exact absurd (Option.some.inj h2) (by decide)
  · rfl
  · rfl
  · rfl

/-- Closed instances discharging each hypothesis of `c3_response_extractor`. -/
theorem c3_response_extractor_witness :
    extract_json "\x7b\x7d" = json_loads (sliceStr "\x7b\x7d" 0 (1 + 1)) ∧
      extract_json "abc" = none ∧
      extract_json "\x7da\x7b" = none :=
  ⟨c3_response_extractor.1 "\x7b\x7d" 0 1 rfl rfl (by omega),
   c3_response_extractor.2.1 "abc" (Or.inl rfl),
   c3_response_extractor.2.2.1 "\x7da\x7b" 2 0 rfl rfl (by omega)⟩

/-- C4: key-file selection returns at most 15 entries without duplicates,
every selected path matches some priority pattern (slash patterns by
substring containment, the rest by suffix), the output is ordered by first
matching priority pattern, and the example tree selects the
`package.json`-suffixed and `README.md` paths before the `src/tools/`
match. -/
theorem c4_key_file_selector :
    (∀ tree summary : JsonVal,
      (identify_key_files tree summary).length ≤ 15 ∧
        (identify_key_files tree summary).Nodup ∧
        (∀ p ∈ identify_key_files tree summary,
          ∃ pat ∈ priority_patterns, patMatches pat p = true) ∧
        (identify_key_files tree summary).Pairwise rankLE) ∧
      identify_key_files exTree exSummary =
        ["x/package.json", "README.md", "src/tools/a.ts"] := by
  constructor
  · intro tree summary
    obtain ⟨hmem, hpw, hnd⟩ := selectFiles_spec (treePaths tree ++ summaryFiles summary)
    refine ⟨?_, ?_, ?_, ?_⟩
    · unfold identify_key_files
      rw [List.length_take]
      omega
    · exact hnd.sublist (List.take_sublist _ _)
    · intro p hp
      have hp' : p ∈ selectFiles (treePaths tree ++ summaryFiles summary) :=
        List.mem_of_mem_take hp
      have := (hmem p hp').2
      simpa [matchedBy, List.any_eq_true] using this
    · exact hpw.sublist (List.take_sublist _ _)
  · decide

/-- Closed instances discharging each hypothesis of `c4_key_file_selector`. -/
theorem c4_key_file_selector_witness :
    (identify_key_files exTree exSummary).length ≤ 15 ∧
      (∃ pat ∈ priority_patterns, patMatches pat "x/package.json" = true) := by
  have h := c4_key_file_selector.1 exTree exSummary
  refine ⟨h.1, h.2.2.1 "x/package.json" ?_⟩
  rw [c4_key_file_selector.2]
  simp

/-- C5: the fallback synthesis path returns the template with only the
analysis timestamp and generator identifier stamped into its metadata
section: every other top-level entry and every other metadata entry is
unchanged, and any of the seven required sections present in the template
is present in the output. -/
theorem c5_fallback_frame :
    ∀ (fields mfields : List (String × JsonVal)) (now : String),
      getKey fields "metadata" = some (.obj mfields) →
      ∃ out, fallback_config (.obj fields) now = some (.obj out) ∧
        (∀ k, k ≠ "metadata" → getKey out k = getKey fields k) ∧
        (∃ mf, getKey out "metadata" = some (.obj mf) ∧
          getKey mf "analysis_date" = some (.str now) ∧
          getKey mf "generated_by" = some (.str "fallback_generator") ∧
          (∀ k, k ≠ "analysis_date" → k ≠ "generated_by" →
            getKey mf k = getKey mfields k)) ∧
        (∀ sec ∈ requiredSections, hasKey fields sec = true → hasKey out sec = true) := by
  intro fields mfields now hmeta
  refine ⟨setKey fields "metadata"
    (.obj (setKey (setKey mfields "analysis_date" (.str now)) "generated_by"
      (.str "fallback_generator"))), ?_, ?_, ?_, ?_⟩
  · simp [fallback_config, hmeta]
  · intro k hk
    exact getKey_setKey_other _ _ _ _ hk
  · refine ⟨_, getKey_setKey_self _ _ _, ?_, getKey_setKey_self _ _ _, ?_⟩
    · rw [getKey_setKey_other _ _ _ _ (by decide)]
      exact getKey_setKey_self _ _ _
    · intro k hk1 hk2
      rw [getKey_setKey_other _ _ _ _ hk2, getKey_setKey_other _ _ _ _ hk1]
  · intro sec _ hk
    by_cases hm : sec = "metadata"
    · subst hm
      unfold hasKey
      rw [getKey_setKey_self]
      rfl
    · unfold hasKey at hk ⊢
      rw [getKey_setKey_other _ _ _ _ hm]
      exact hk

/-- Closed instance discharging the hypothesis of `c5_fallback_frame`. -/
theorem c5_fallback_frame_witness :
    ∃ out,
      fallback_config (.obj [("metadata", .obj [("server_id", .str "tpl")]),
        ("deployment", .obj [])]) "2025-01-01" = some (.obj out) ∧
      (∀ k, k ≠ "metadata" →
        getKey out k = getKey [("metadata", JsonVal.obj [("server_id", .str "tpl")]),
          ("deployment", JsonVal.obj [])] k) ∧
      (∃ mf, getKey out "metadata" = some (.obj mf) ∧
        getKey mf "analysis_date" = some (.str "2025-01-01") ∧
        getKey mf "generated_by" = some (.str "fallback_generator") ∧
        (∀ k, k ≠ "analysis_date" → k ≠ "generated_by" →
          getKey mf k = getKey [("server_id", JsonVal.str "tpl")] k)) ∧
      (∀ sec ∈ requiredSections,
        hasKey [("metadata", JsonVal.obj [("server_id", .str "tpl")]),
          ("deployment", JsonVal.obj [])] sec = true → hasKey out sec = true) :=
  c5_fallback_frame _ _ "2025-01-01" rfl

/-- C6: every failing outcome of the external summary call — timeout,
non-zero exit, or a zero-exit response with no extractable JSON — yields a
degraded RepositorySummary whose description field carries a non-empty
human-readable reason; no error is propagated. -/
theorem c6_summary_degradation :
    ∀ (owner repo : String) (call : CallOutcome),
      (call = CallOutcome.timeout ∨
        (∃ rc out, call = CallOutcome.exited rc out ∧ rc ≠ 0) ∨
        (∃ out, call = CallOutcome.exited 0 out ∧ extract_json (pyStrip out) = none)) →
      ∃ reason, reason ≠ "" ∧
        get_repository_summary owner repo call = degradedSummary owner repo reason ∧
        jGet (get_repository_summary owner repo call) "description" =
          some (JsonVal.str reason) := by
  intro owner repo call h
  have hdesc : ∀ reason, jGet (degradedSummary owner repo reason) "description" =
      some (JsonVal.str reason) := by
    intro reason
    simp [degradedSummary, jGet, getKey]
  rcases h with h | ⟨rc, out, hcall, hrc⟩ | ⟨out, hcall, hex⟩
  · subst h
    exact ⟨"Analysis timed out", by simp, rfl, hdesc _⟩
  · subst hcall
    have hsum : get_repository_summary owner repo (CallOutcome.exited rc out) =
        degradedSummary owner repo "GitIngest call failed" := by
      simp [get_repository_summary, hrc]
    exact ⟨"GitIngest call failed", by simp, hsum, by rw [hsum]; exact hdesc _⟩
  · subst hcall
    unfold extract_json at hex
    cases hbs : braceSlice (pyStrip out) with
    | none =>
      have hsum : get_repository_summary owner repo (CallOutcome.exited 0 out) =
          degradedSummary owner repo "Analysis failed" := by
        simp [get_repository_summary, hbs]
      exact ⟨"Analysis failed", by simp, hsum, by rw [hsum]; exact hdesc _⟩
    | some jstr =>
      rw [hbs] at hex
      cases hjl : json_loads jstr with
      | some v =>
        rw [Option.some_bind, hjl] at hex
        exact absurd hex (by simp)
      | none =>
        have hsum : get_repository_summary owner repo (CallOutcome.exited 0 out) =
            degradedSummary owner repo "JSON parse failed" := by
          simp [get_repository_summary, hbs, hjl]
        exact ⟨"JSON parse failed", by simp, hsum, by rw [hsum]; exact hdesc _⟩

/-- Closed instance discharging the hypothesis of `c6_summary_degradation`. -/
theorem c6_summary_degradation_witness :
    ∃ reason, reason ≠ "" ∧
      get_repository_summary "acme" "widget-mcp" CallOutcome.timeout =
        degradedSummary "acme" "widget-mcp" reason ∧
      jGet (get_repository_summary "acme" "widget-mcp" CallOutcome.timeout) "description" =
        some (JsonVal.str reason) :=
  c6_summary_degradation "acme" "widget-mcp" CallOutcome.timeout (Or.inl rfl)

/-- C7: selection follows the fixed preference order gemini, codex, claude
(it equals the first available backend of that list), claude is always
marked available so selection always yields a backend, both optional
backends available selects gemini, and neither available selects claude. -/
theorem c7_agent_selection :
    ∀ (gp cp : Option Int),
      availOf (detect_agents gp cp) Agent.claude = true ∧
        [Agent.gemini, Agent.codex, Agent.claude].find?
            (fun x => availOf (detect_agents gp cp) x) =
          some (select_best_agent (detect_agents gp cp)) ∧
        ((detect_agents gp cp).gemini = true → (detect_agents gp cp).codex = true →
          select_best_agent (detect_agents gp cp) = Agent.gemini) ∧
        ((detect_agents gp cp).gemini = false → (detect_agents gp cp).codex = false →
          select_best_agent (detect_agents gp cp) = Agent.claude) := by
  intro gp cp
  have key : ∀ g c : Bool,
      availOf ⟨g, c, true⟩ Agent.claude = true ∧
        [Agent.gemini, Agent.codex, Agent.claude].find? (fun x => availOf ⟨g, c, true⟩ x) =
          some (select_best_agent ⟨g, c, true⟩) ∧
        (g = true → c = true → select_best_agent ⟨g, c, true⟩ = Agent.gemini) ∧
        (g = false → c = false → select_best_agent ⟨g, c, true⟩ = Agent.claude) := by
    decide
  exact key (probeOk gp) (probeOk cp)

/-- Closed instances discharging each hypothesis of `c7_agent_selection`. -/
theorem c7_agent_selection_witness :
    select_best_agent (detect_agents (some 0) (some 0)) = Agent.gemini ∧
      select_best_agent (detect_agents none none) = Agent.claude :=
  ⟨(c7_agent_selection (some 0) (some 0)).2.2.1 rfl rfl,
   (c7_agent_selection none none).2.2.2 rfl rfl⟩

/-- C8 counterexample: with the local and docker signals detected and the
publishable-package (npm) signal absent, the code chooses `"local"`, not
`"docker"` — docker indicators do not rank above the mere existence of
another deployment signal. -/
theorem c8_priority_deployment_counterexample :
    DeploymentSignals.docker ⟨false, false, true, true⟩ = true ∧
      DeploymentSignals.npm ⟨false, false, true, true⟩ = false ∧
      determine_priority_deployment ⟨false, false, true, true⟩ = "local" ∧
      determine_priority_deployment ⟨false, false, true, true⟩ ≠ "docker" := by
  refine ⟨rfl, rfl, rfl, ?_⟩
  decide

/-- C8 amended: the priority-deployment choice follows the fixed precedence
smithery over npm over local over docker among the detected signals, the
choice is `"manual"` exactly when no signal is detected, and the signal
detector always marks smithery available. -/
theorem c8_priority_deployment_amended :
    (∀ s n l d : Bool,
      (determine_priority_deployment ⟨s, n, l, d⟩ = "smithery" ↔ s = true) ∧
        (determine_priority_deployment ⟨s, n, l, d⟩ = "npm" ↔ s = false ∧ n = true) ∧
        (determine_priority_deployment ⟨s, n, l, d⟩ = "local" ↔
          s = false ∧ n = false ∧ l = true) ∧
        (determine_priority_deployment ⟨s, n, l, d⟩ = "docker" ↔
          s = false ∧ n = false ∧ l = false ∧ d = true) ∧
        (determine_priority_deployment ⟨s, n, l, d⟩ = "manual" ↔
          s = false ∧ n = false ∧ l = false ∧ d = false)) ∧
      (∀ fps : List String, (analyze_deployment_options fps).smithery = true) := by
  constructor
  · decide
  · intro fps
    rfl

/-- Closed instances discharging the equivalences of
`c8_priority_deployment_amended`. -/
theorem c8_priority_deployment_amended_witness :
    determine_priority_deployment ⟨true, true, true, true⟩ = "smithery" ∧
      determine_priority_deployment ⟨false, false, false, false⟩ = "manual" :=
  ⟨(c8_priority_deployment_amended.1 true true true true).1.mpr rfl,
   (c8_priority_deployment_amended.1 false false false false).2.2.2.2.mpr
     ⟨rfl, rfl, rfl, rfl⟩⟩

theorem mem_setKey (m : List (String × JsonVal)) (k0 : String) (v0 : JsonVal)
    (k : String) (v : JsonVal) (h : (k, v) ∈ setKey m k0 v0) :
    k = k0 ∨ ∃ v', (k, v') ∈ m := by
  induction m with
  | nil =>
    simp [setKey] at h
    exact Or.inl h.1
  | cons hd tl ih =>
    obtain ⟨k', v'⟩ := hd
    by_cases hk : k' = k0
    · rw [setKey, if_pos hk] at h
      rcases List.mem_cons.mp h with h | h
      · exact Or.inl (Prod.mk.injEq .. ▸ h).1
      · exact Or.inr ⟨v, List.mem_cons_of_mem _ h⟩
    · rw [setKey, if_neg hk] at h
      rcases List.mem_cons.mp h with h | h
      · exact Or.inr ⟨v, by rw [h]; exact List.mem_cons_self _ _⟩
      · rcases ih h with h | ⟨v'', hv⟩
        · exact Or.inl h
        · exact Or.inr ⟨v'', List.mem_cons_of_mem _ hv⟩

theorem foldl_fc_keys (files_data : List (String × JsonVal)) (P : String → Prop) :
    ∀ (l : List String) (acc : List (String × JsonVal)),
      (∀ k v, (k, v) ∈ acc → P k) → (∀ p ∈ l, P p) →
      ∀ k v, (k, v) ∈ l.foldl
          (fun acc p =>
            match getKey files_data p with
            | some w => setKey acc p w
            | none => acc) acc → P k := by
  intro l
  induction l with
  | nil =>
    intro acc hacc _ k v h
    exact hacc k v h
  | cons p ps ih =>
    intro acc hacc hl k v h
    rw [List.foldl_cons] at h
    refine ih _ ?_ (fun q hq => hl q (List.mem_cons_of_mem _ hq)) k v h
    intro k' v' hk'
    cases hg : getKey files_data p with
    | some w =>
      rw [hg] at hk'
      rcases mem_setKey _ _ _ _ _ hk' with h' | ⟨v'', hv⟩
      · rw [h']
        exact hl p (List.mem_cons_self _ _)
      · exact hacc k' v'' hv
    | none =>
      rw [hg] at hk'
      exact hacc k' v' hk'

/-- C10: the FileContentMap returned by file-content extraction only binds
requested paths — a key appears in the result only if it was requested —
and an empty request yields an empty map. -/
theorem c10_file_contents_keys :
    ∀ (paths : List String) (call : CallOutcome),
      (∀ k v, (k, v) ∈ extract_file_contents paths call → k ∈ paths) ∧
        (paths = [] → extract_file_contents paths call = []) := by
  intro paths call
  constructor
  · intro k v h
    unfold extract_file_contents at h
    split at h
    · simp at h
    · split at h
      · simp at h
      · split at h
        · split at h
          · split at h
            · exact foldl_fc_keys _ (· ∈ paths) paths []
                (by intro k' v' h'; simp at h') (fun p hp => hp) k v h
            · simp at h
            · simp at h
          · simp at h
        · simp at h
  · intro hp
    subst hp
    rfl

/-- Closed instances discharging each hypothesis of
`c10_file_contents_keys`. -/
theorem c10_file_contents_keys_witness :
    "a" ∈ ["a", "b"] ∧ extract_file_contents [] CallOutcome.timeout = [] :=
  ⟨(c10_file_contents_keys ["a", "b"]
      (CallOutcome.exited 0 "\x7b\"a\": 1, \"c\": 2\x7d")).1 "a" (JsonVal.num 1)
      (List.mem_singleton.mpr rfl),
   (c10_file_contents_keys [] CallOutcome.timeout).2 rfl⟩

end MCPHQ
